import Mathlib

/-!
# Verification of the ziggypy Ziggurat container writer

A shallow embedding of the ziggypy encoder (varint codec, component codecs,
container header/BOM assembly and the lexicon recipes) together with proofs
about the properties claimed of it.

Conventions used throughout:
* byte sequences are `List Nat`, every entry in `[0, 256)`;
* Python/numpy 64-bit values are `Int` (signed) or `Nat` (unsigned) with the
  wrap-around made explicit where the source relies on it;
* fallible constructors (Python code that can raise) return `Option`/`Except`.
-/

namespace Ziggypy

/-- numpy int64 wrap-around: reduce an arbitrary integer into `[-2^63, 2^63)`. -/
def wrap64 (x : Int) : Int := (x + 2 ^ 63) % 2 ^ 64 - 2 ^ 63

/-- `leBytes k v` is the `k`-byte little-endian encoding of `v % 256^k`. -/
def leBytes : Nat → Nat → List Nat
  | 0, _ => []
  | k + 1, v => v % 256 :: leBytes k (v / 256)

/-- `struct.pack('<q', x)`: 8-byte little-endian two's-complement int64. -/
def int64le (x : Int) : List Nat := leBytes 8 ((x % 2 ^ 64).toNat)

/-- `struct.pack('<Q', n)`: 8-byte little-endian uint64. -/
def u64le (n : Nat) : List Nat := leBytes 8 (n % 2 ^ 64)

theorem leBytes_length (k v : Nat) : (leBytes k v).length = k := by
  induction k generalizing v with
  | zero => rfl
  | succ k ih => simp [leBytes, ih]

theorem int64le_length (x : Int) : (int64le x).length = 8 := leBytes_length 8 _

theorem u64le_length (n : Nat) : (u64le n).length = 8 := leBytes_length 8 _

/-! ## The varint codec (src/varint.py, `encode_varint`)

The Python function first replaces a negative `x` by its bitwise complement
`~x` (so the magnitude `mag` is `-x-1` for negative `x`, `x` otherwise), then
counts bytes with

    mask = 0xFFFFFFFFFFFFFFFF << 6
    n_bytes = 1
    while (x & mask) != 0: mask <<= 7; n_bytes += 1

Because Python integers are unbounded the mask after `j` extra shifts covers
exactly the bit window `[6+7j, 70+7j)`, so the loop condition is
`mag / 2^(6+7j) % 2^64 ≠ 0` and the loop runs while the first failure has not
been reached.  For every magnitude below `2^64` (the whole int64 domain, the
only domain the repository ever passes in) the condition fails for every
`j ≥ 9`, so the loop runs at most 10 times; we render the loop as the length
of the longest true prefix of `j = 0, 1, 2, …, 15`, which coincides with the
Python loop count on this domain. -/
def varintNBytes (mag : Nat) : Nat :=
  ((List.range 16).takeWhile (fun j => mag / 2 ^ (6 + 7 * j) % 2 ^ 64 != 0)).length + 1

/-- The `while k > 0` loop of `encode_varint`: starting from output index `k`
and walking down to index 1, emit 7 low bits of `x` per byte, setting the
continuation bit `0x80` on every index strictly below `nb - 1`.  Returns the
magnitude bits left for byte 0 together with the bytes at indices `1..k`
listed in increasing index order. -/
def varintLoop (x : Nat) (k : Nat) (nb : Nat) : Nat × List Nat :=
  match k with
  | 0 => (x, [])
  | k + 1 =>
    let byte := x % 128
    let byte := if k + 1 < nb - 1 then byte + 128 else byte
    let rest := varintLoop (x / 128) k nb
    (rest.1, rest.2 ++ [byte])

/-- src/varint.py `encode_varint`, byte-for-byte: byte 0 carries the
continuation bit (`0x80` iff more than one byte), the sign bit (`0x40` iff the
input was negative) and the top 6 magnitude bits; when the loop announced
exactly 9 bytes, byte 8 first takes a full 8 low bits. -/
def encode_varint (x : Int) : List Nat :=
  let negative := x < 0
  let mag : Nat := if negative then (-(x + 1)).toNat else x.toNat
  let nb := varintNBytes mag
  if nb = 9 then
    let b8 := mag % 256
    let m := varintLoop (mag / 256) 7 nb
    let b0 := m.1 % 64 + (if 1 < nb then 128 else 0) + (if negative then 64 else 0)
    (b0 :: m.2) ++ [b8]
  else
    let m := varintLoop mag (nb - 1) nb
    let b0 := m.1 % 64 + (if 1 < nb then 128 else 0) + (if negative then 64 else 0)
    b0 :: m.2

/-- Reference decoder, written from the wording of spec §4.1 (not from the
source): byte 0 holds continuation bit 7, sign bit 6 and the top 6 magnitude
bits; each continuation byte holds 7 magnitude bits, a clear bit 7 ending the
number; the byte at index 8 (the 9-byte form) is taken as a full low byte; a
set sign bit complements the magnitude.  Helper: accumulate from byte index
`idx ≥ 1`. -/
def decodeVarintAux (acc : Nat) (idx : Nat) : List Nat → Option Nat
  | [] => none
  | b :: rest =>
    if idx = 8 then some (acc * 256 + b)
    else if b < 128 then some (acc * 128 + b)
    else decodeVarintAux (acc * 128 + (b - 128)) (idx + 1) rest

/-- Reference decoder for the §4.1 layout, see `decodeVarintAux`. -/
def decode_varint : List Nat → Option Int
  | [] => none
  | b0 :: rest =>
    let negative := 64 ≤ b0 % 128
    let mag0 := b0 % 64
    if b0 < 128 then
      some (if negative then -(mag0 : Int) - 1 else (mag0 : Int))
    else
      match decodeVarintAux mag0 1 rest with
      | none => none
      | some mag => some (if negative then -(mag : Int) - 1 else (mag : Int))

example : encode_varint 0 = [0] := by decide
example : encode_varint (-1) = [64] := by decide
example : encode_varint 64 = [128, 64] := by decide

/-! ## Container assembly (src/container.py) -/

/-- The data a `Component` presents to the container writer: the BOM fields
plus the pre-computed payload.  `bytelen` models the `bytelen()` method,
`payload` the bytes emitted by `write()`. -/
structure Component where
  componentType : Nat
  mode : Nat
  name : List Nat
  param1 : Int
  param2 : Int
  bytelen : Nat
  payload : List Nat

/-- `Component.write_bom`: the 48-byte BOM entry.  The Python guard
`self.params[0] if self.params[0] else 0` is the identity on integers (the
only falsy int is 0 itself), so the params are written directly. -/
def writeBom (c : Component) (offset : Int) (size : Int) : List Nat :=
  [1, c.componentType, c.mode] ++ (c.name ++ List.replicate (13 - c.name.length) 0)
    ++ int64le offset ++ int64le size ++ int64le c.param1 ++ int64le c.param2

/-- A Ziggurat container: type tag (3 ASCII bytes), dimensions, uuid
(36 ASCII bytes), up to two base uuids, and the ordered components. -/
structure Container where
  components : List Component
  containerType : List Nat
  dim1 : Int
  dim2 : Int
  uuid : List Nat
  baseUuid1 : Option (List Nat)
  baseUuid2 : Option (List Nat)

/-- `data_start(cn) = BOM_START + cn * LEN_BOM_ENTRY = 160 + 48 * cn`. -/
def data_start (cn : Nat) : Int := 160 + cn * 48

/-- `align_offset` from src/container.py. -/
def align_offset (o : Int) : Int := if o % 8 > 0 then o + (8 - o % 8) else o

/-- `struct.pack('B', n)`: one byte, raising for `n > 255`. -/
def packB (n : Nat) : Option (List Nat) := if n < 256 then some [n] else none

/-- A Python list assignment `l[i] = a` (for `i ≥ 0`): succeeds only when
`i` is strictly below the current length, otherwise raises `IndexError`. -/
def listAssign (l : List α) (i : Nat) (a : α) : Option (List α) :=
  if i < l.length then some (l.set i a) else none

/-- The offsets loop of `Container.write_header`:

    self.offsets = [data_start(len(self.components))]
    for i, c in enumerate(self.components[1:], start=1):
        self.offsets[i] = align_offset(self.offsets[i-1] + c.bytelen())

Each iteration reads index `i-1` (modelled with `getD`; the read is always in
range whenever it is reached, the list having at least one element) and then
performs the list assignment at index `i`.  `none` models the `IndexError`
raised by that assignment. -/
def computeOffsets (cs : List Component) : Option (List Int) :=
  (List.enumFrom 1 (cs.drop 1)).foldlM
    (fun offsets ic =>
      listAssign offsets ic.1 (align_offset (offsets.getD (ic.1 - 1) 0 + (ic.2.bytelen : Int))))
    [data_start cs.length]

/-- `str(uuid).encode('ascii')` guarded by `assert len(s) == 36` when a base
uuid is present, else 36 zero bytes; `none` models the `AssertionError`. -/
def baseUuidField : Option (List Nat) → Option (List Nat)
  | none => some (List.replicate 36 0)
  | some u => if u.length = 36 then some u else none

/-- The 160-byte header of §4.11.1, as written on the happy path (components
count below 256, base uuids of length 36). -/
def headerBytes (c : Container) : List Nat :=
  [90, 105, 103, 103, 117, 114, 97, 116] ++ [49, 46, 48, 9]
    ++ c.containerType ++ [10] ++ c.uuid ++ [10, 4, 0, 0]
    ++ [c.components.length % 256, c.components.length % 256] ++ List.replicate 6 0
    ++ int64le c.dim1 ++ int64le c.dim2
    ++ c.baseUuid1.getD (List.replicate 36 0) ++ List.replicate 4 0
    ++ c.baseUuid2.getD (List.replicate 36 0) ++ List.replicate 4 0

/-- `Container.write_header`: every `f.write` appends to the output.  The
result is `.error bs` when an exception is raised after `bs` was written
(over-large component count, malformed base uuid, or the offsets loop), and
`.ok bs` when the header and all BOM entries were emitted. -/
def write_header (c : Container) : Except (List Nat) (List Nat) :=
  let pre1 := [90, 105, 103, 103, 117, 114, 97, 116] ++ [49, 46, 48, 9]
    ++ c.containerType ++ [10] ++ c.uuid ++ [10, 4, 0, 0]
  match packB c.components.length with
  | none => .error pre1
  | some nb =>
    let pre2 := pre1 ++ nb ++ nb ++ List.replicate 6 0 ++ int64le c.dim1 ++ int64le c.dim2
    match baseUuidField c.baseUuid1 with
    | none => .error pre2
    | some b1 =>
      let pre3 := pre2 ++ b1 ++ List.replicate 4 0
      match baseUuidField c.baseUuid2 with
      | none => .error pre3
      | some b2 =>
        let hdr := pre3 ++ b2 ++ List.replicate 4 0
        match computeOffsets c.components with
        | none => .error hdr
        | some offsets =>
          let sizes := c.components.map (fun comp => (comp.bytelen : Int))
          let boms := (c.components.zip (offsets.zip sizes)).map
            (fun t => writeBom t.1 t.2.1 t.2.2)
          .ok (hdr ++ boms.flatten)

/-- `Container.write`: the header (with BOM) followed by each component's
payload; an exception in `write_header` propagates. -/
def containerWrite (c : Container) : Except (List Nat) (List Nat) :=
  match write_header c with
  | .error bs => .error bs
  | .ok bs => .ok (bs ++ (c.components.map Component.payload).flatten)

/-- With two or more components the very first iteration of the offsets loop
assigns to index 1 of the one-element list `[data_start n]` and fails. -/
theorem computeOffsets_cons_cons (a b : Component) (rest : List Component) :
    computeOffsets (a :: b :: rest) = none := by
  simp [computeOffsets, listAssign, List.enumFrom, List.foldlM_cons]

theorem computeOffsets_nil : computeOffsets [] = some [data_start 0] := rfl

theorem computeOffsets_singleton (a : Component) :
    computeOffsets [a] = some [data_start 1] := rfl

/-- Unfolding of `baseUuidField` on well-formed input. -/
theorem baseUuidField_eq (o : Option (List Nat)) (h : ∀ u, o = some u → u.length = 36) :
    baseUuidField o = some (o.getD (List.replicate 36 0)) := by
  cases o with
  | none => rfl
  | some u => simp [baseUuidField, h u rfl]

/-- Concrete components and container used to evaluate the offsets bug. -/
def pvec16 : Component :=
  ⟨4, 0, [80, 97], 2, 1, 16, List.replicate 16 0⟩

def pvec8 : Component :=
  ⟨4, 0, [81, 98], 1, 1, 8, List.replicate 8 0⟩

def twoComponentContainer : Container :=
  ⟨[pvec16, pvec8], [90, 76, 115], 2, 0, List.replicate 36 48, none, none⟩

/-- C1: the spec's offset recurrence (component 0 at `160 + 48·n`, component
`i` at `align8(offset_{i-1} + bytelen_{i-1})`) is never realised by the code
as soon as a second component exists: the offsets loop performs the list
assignment `offsets[1] = …` on the one-element list `[data_start]`, raising
`IndexError`, so `write_header` aborts right after the 160-byte header and no
BOM offset is ever declared.  (The claim's recurrence would have produced
offset `272 = align8(256 + 16)` for component 1 here.)  Note also that the
loop body reads `c.bytelen()` of the *current* component `i`, not of
component `i-1` as the claim requires. -/
theorem c1_offset_recurrence_unreachable :
    computeOffsets [pvec16, pvec8] = none ∧
    write_header twoComponentContainer = .error (headerBytes twoComponentContainer) ∧
    data_start 2 = 256 ∧
    align_offset (data_start 2 + 16) = 272 := by
  refine ⟨computeOffsets_cons_cons _ _ _, by rfl, by decide, by decide⟩

/-- C2: with two or more components, `write_header` (hence `write`) raises
out of the offsets loop after exactly the 160-byte header and before any BOM
entry; with zero or one component, `write` runs to completion. -/
theorem c2_write_raises_iff_two_or_more (c : Container)
    (hty : c.containerType.length = 3) (huu : c.uuid.length = 36)
    (hu1 : ∀ u, c.baseUuid1 = some u → u.length = 36)
    (hu2 : ∀ u, c.baseUuid2 = some u → u.length = 36)
    (hn : c.components.length ≤ 255) :
    (2 ≤ c.components.length →
      write_header c = .error (headerBytes c) ∧ (headerBytes c).length = 160 ∧
      containerWrite c = .error (headerBytes c)) ∧
    (c.components.length ≤ 1 → ∃ bs, containerWrite c = .ok bs) := by
  have e1 : packB c.components.length = some [c.components.length] := by
    simp [packB, Nat.lt_succ_of_le hn]
  have emod : c.components.length % 256 = c.components.length :=
    Nat.mod_eq_of_lt (Nat.lt_succ_of_le hn)
  have gb1 := baseUuidField_eq c.baseUuid1 hu1
  have gb2 := baseUuidField_eq c.baseUuid2 hu2
  have hlen : (headerBytes c).length = 160 := by
    have l1 : (c.baseUuid1.getD (List.replicate 36 0)).length = 36 := by
      cases h : c.baseUuid1 with
      | none => simp
      | some u => simpa using hu1 u h
    have l2 : (c.baseUuid2.getD (List.replicate 36 0)).length = 36 := by
      cases h : c.baseUuid2 with
      | none => simp
      | some u => simpa using hu2 u h
    rw [headerBytes]
    simp only [List.length_append, List.length_cons, List.length_nil,
      List.length_replicate, int64le_length, huu, hty, l1, l2]
  constructor
  · intro h2
    have hnone : computeOffsets c.components = none := by
      rcases hcs : c.components with _ | ⟨a, _ | ⟨b, rest⟩⟩
      · rw [hcs] at h2; simp at h2
      · rw [hcs] at h2; simp at h2
      · exact computeOffsets_cons_cons a b rest
    have hw : write_header c = .error (headerBytes c) := by
      simp only [write_header, e1, gb1, gb2, hnone, headerBytes, emod]
      simp [List.append_assoc]
    exact ⟨hw, hlen, by simp [containerWrite, hw]⟩
  · intro h1
    have hsome : ∃ offs, computeOffsets c.components = some offs := by
      rcases hcs : c.components with _ | ⟨a, _ | ⟨b, rest⟩⟩
      · exact ⟨_, computeOffsets_nil⟩
      · exact ⟨_, computeOffsets_singleton a⟩
      · rw [hcs] at h1; simp at h1
    obtain ⟨offs, hoffs⟩ := hsome
    exact ⟨_, by simp only [containerWrite, write_header, e1, gb1, gb2, hoffs]; rfl⟩

/-- Witness for C2 at concrete containers: two components raise with exactly
the 160-byte header written; the same container cut to one component writes
completely. -/
theorem c2_write_raises_witness :
    (write_header twoComponentContainer =
        .error (headerBytes twoComponentContainer) ∧
      (headerBytes twoComponentContainer).length = 160 ∧
      containerWrite twoComponentContainer =
        .error (headerBytes twoComponentContainer)) ∧
    (∃ bs, containerWrite ⟨[pvec16], [90, 76, 112], 2, 0,
        List.replicate 36 48, none, none⟩ = .ok bs) :=
  ⟨(c2_write_raises_iff_two_or_more twoComponentContainer (by decide) (by decide)
      (by intro u h; simp [twoComponentContainer] at h)
      (by intro u h; simp [twoComponentContainer] at h) (by decide)).1 (by decide),
    (c2_write_raises_iff_two_or_more _ (by decide) (by decide)
      (by intro u h; simp at h) (by intro u h; simp at h) (by decide)).2 (by decide)⟩

/-- C4: the varint claim fails at the int64 extremes.  The byte-count loop of
`encode_varint` charges only 7 payload bits to the ninth byte, so every
magnitude of 62 bits or more (in particular the claimed test-set values
`-2^63` and `2^63 - 1`) is emitted in **10** bytes, and the §4.1 reference
decoder (which takes byte index 8 as a full low byte) does not recover the
value.  All claimed test-set values of magnitude below `2^62` do round-trip
within 9 bytes. -/
theorem c4_varint_ten_bytes_at_extremes :
    (encode_varint (2 ^ 63 - 1)).length = 10 ∧
    (encode_varint (-2 ^ 63)).length = 10 ∧
    decode_varint (encode_varint (2 ^ 63 - 1)) = some (2 ^ 57 - 1) ∧
    ((2 ^ 57 - 1 : Int) = 2 ^ 63 - 1 → False) ∧
    (∀ x ∈ [(-10 ^ 9 : Int), -127, -64, -63, -1, 0, 1, 63, 64, 127, 10 ^ 9],
      decode_varint (encode_varint x) = some x ∧
        1 ≤ (encode_varint x).length ∧ (encode_varint x).length ≤ 9) ∧
    decode_varint (encode_varint (2 ^ 62 - 1)) = some (2 ^ 62 - 1) ∧
    (encode_varint (2 ^ 62 - 1)).length = 9 ∧
    decode_varint (encode_varint (-2 ^ 62)) = some (-2 ^ 62) := by
  decide

/-! ## Stable sorting

`Index`/`IndexCompressed` sort with `data[data[:,1].argsort()]` followed by
`data[data[:,0].argsort(kind='mergesort')]`, i.e. a pass by position followed
by a *stable* pass by key; `Counter.most_common()` is
`sorted(items, key=count, reverse=True)`, a stable descending sort.  All
stable sorts of a list with respect to the same total preorder produce the
same list, and the value-level outcome of the two-pass index sort does not
depend on how the first pass breaks its ties (elements tied on both
coordinates are equal as values), so `List.insertionSort` — which inserts
behind every earlier equivalent element, hence is stable — is an exact model
of both.  The lemma: stably sorting by `r` a list that was `Pairwise q`
leaves lists pairwise in the lexicographic strengthening of `r` by `q`. -/

section StableSort

variable {α : Type} (r q : α → α → Prop)

/-- `r`-order refined, on `r`-ties, by the pre-existing order `q`. -/
def lexSplit (a b : α) : Prop := (r a b ∧ ¬ r b a) ∨ (r a b ∧ r b a ∧ q a b)

theorem orderedInsert_pairwise_lexSplit [DecidableRel r]
    (htot : ∀ a b, r a b ∨ r b a) (htr : ∀ a b c, r a b → r b c → r a c) (x : α) :
    ∀ s : List α, s.Pairwise (lexSplit r q) → (∀ z ∈ s, q x z) →
      (List.orderedInsert r x s).Pairwise (lexSplit r q)
  | [], _, _ => by simp [List.orderedInsert]
  | y :: ys, hp, hq => by
    obtain ⟨hy, hys⟩ := List.pairwise_cons.mp hp
    by_cases hxy : r x y
    · rw [List.orderedInsert, if_pos hxy]
      refine List.pairwise_cons.mpr ⟨?_, hp⟩
      intro z hz
      have hrxz : r x z := by
        rcases List.mem_cons.mp hz with h | h
        · exact h ▸ hxy
        · rcases hy z h with ⟨h1, _⟩ | ⟨h1, _, _⟩ <;> exact htr x y z hxy h1
      by_cases hzx : r z x
      · exact Or.inr ⟨hrxz, hzx, hq z hz⟩
      · exact Or.inl ⟨hrxz, hzx⟩
    · rw [List.orderedInsert, if_neg hxy]
      refine List.pairwise_cons.mpr ⟨?_, ?_⟩
      · intro z hz
        rcases (List.mem_orderedInsert r).mp hz with h | h
        · subst h
          exact Or.inl ⟨(htot z y).resolve_left hxy, hxy⟩
        · exact hy z h
      · exact orderedInsert_pairwise_lexSplit htot htr x ys hys
          (fun z hz => hq z (List.mem_cons_of_mem _ hz))

theorem insertionSort_pairwise_lexSplit [DecidableRel r]
    (htot : ∀ a b, r a b ∨ r b a) (htr : ∀ a b c, r a b → r b c → r a c) :
    ∀ l : List α, l.Pairwise q → (List.insertionSort r l).Pairwise (lexSplit r q)
  | [], _ => by simp [List.insertionSort]
  | x :: xs, hp => by
    obtain ⟨hx, hxs⟩ := List.pairwise_cons.mp hp
    rw [List.insertionSort]
    exact orderedInsert_pairwise_lexSplit r q htot htr x _
      (insertionSort_pairwise_lexSplit htot htr xs hxs)
      (fun z hz => hx z ((List.mem_insertionSort r).mp hz))

end StableSort

theorem le_fst_of_mem_enumFrom {α : Type} :
    ∀ (l : List α) (n : Nat) (z : Nat × α), z ∈ List.enumFrom n l → n ≤ z.1
  | [], _, _, h => by simp [List.enumFrom] at h
  | x :: xs, n, z, h => by
    rcases List.mem_cons.mp h with rfl | h
    · exact Nat.le_refl n
    · exact Nat.le_of_succ_le (le_fst_of_mem_enumFrom xs (n + 1) z h)

theorem enumFrom_pairwise_fst_lt {α : Type} :
    ∀ (l : List α) (n : Nat), (List.enumFrom n l).Pairwise (fun a b => a.1 < b.1)
  | [], _ => by simp
  | x :: xs, n => by
    refine List.pairwise_cons.mpr ⟨?_, enumFrom_pairwise_fst_lt xs (n + 1)⟩
    intro z hz
    exact Nat.lt_of_succ_le (le_fst_of_mem_enumFrom xs (n + 1) z hz)

/-! ## Index (component_type 0x06, mode 0x00) -/

/-- First sorting pass: by position (column 1). -/
def pairPosLe (a b : Nat × Nat) : Prop := a.2 ≤ b.2

instance : DecidableRel pairPosLe := fun a b => inferInstanceAs (Decidable (a.2 ≤ b.2))

instance : IsTotal (Nat × Nat) pairPosLe := ⟨fun a b => Nat.le_total a.2 b.2⟩

instance : IsTrans (Nat × Nat) pairPosLe := ⟨fun _ _ _ h1 h2 => Nat.le_trans h1 h2⟩

/-- Second, stable sorting pass: by key (column 0). -/
def pairKeyLe (a b : Nat × Nat) : Prop := a.1 ≤ b.1

instance : DecidableRel pairKeyLe := fun a b => inferInstanceAs (Decidable (a.1 ≤ b.1))

/-- The two-pass sort shared by `Index` and `IndexCompressed` (the
`sorted=False` path): sort by position, then stably by key. -/
def indexSortPairs (l : List (Nat × Nat)) : List (Nat × Nat) :=
  List.insertionSort pairKeyLe (List.insertionSort pairPosLe l)

/-- `Index.write`: each (key, position) pair flattened in order, every value
as u64 little-endian. -/
def indexPayload (l : List (Nat × Nat)) : List Nat :=
  (indexSortPairs l).flatMap (fun p => u64le p.1 ++ u64le p.2)

/-- C8: the two-pass sort orders pairs primarily by key ascending and
secondarily by position ascending while permuting the input; on the S5 pairs
it yields `[(1,0),(1,1),(5,1),(5,2)]` and a 64-byte payload of u64
little-endian values. -/
theorem c8_index_two_pass_sort (l : List (Nat × Nat)) :
    (indexSortPairs l).Pairwise
      (fun (a b : Nat × Nat) => a.1 < b.1 ∨ (a.1 = b.1 ∧ a.2 ≤ b.2)) ∧
    List.Perm (indexSortPairs l) l ∧
    indexSortPairs [(5, 2), (1, 0), (5, 1), (1, 1)] =
      [(1, 0), (1, 1), (5, 1), (5, 2)] ∧
    indexPayload [(5, 2), (1, 0), (5, 1), (1, 1)] =
      u64le 1 ++ u64le 0 ++ u64le 1 ++ u64le 1 ++
        u64le 5 ++ u64le 1 ++ u64le 5 ++ u64le 2 ∧
    (indexPayload [(5, 2), (1, 0), (5, 1), (1, 1)]).length = 64 := by
  refine ⟨?_, ?_, by decide, by decide, by decide⟩
  · have h := insertionSort_pairwise_lexSplit pairKeyLe pairPosLe
      (fun a b => Nat.le_total a.1 b.1)
      (fun a b c hab hbc => Nat.le_trans hab hbc)
      (List.insertionSort pairPosLe l)
      (List.sorted_insertionSort pairPosLe l)
    refine h.imp ?_
    rintro a b (⟨h1, h2⟩ | ⟨h1, h2, h3⟩)
    · have h1 : a.1 ≤ b.1 := h1
      have h2 : ¬ b.1 ≤ a.1 := h2
      exact Or.inl (by omega)
    · have h1 : a.1 ≤ b.1 := h1
      have h2 : b.1 ≤ a.1 := h2
      have h3 : a.2 ≤ b.2 := h3
      exact Or.inr ⟨Nat.le_antisymm h1 h2, h3⟩
  · exact (List.perm_insertionSort pairKeyLe _).trans
      (List.perm_insertionSort pairPosLe l)

/-! ## Lexicon ordering (`Counter(...).most_common()` in src/variables.py)

`IndexedStringVariable` builds `lex = [x[0] for x in Counter(strings).most_common()]`
and `SetVariable` builds `types = {x[0]: i for i, x in enumerate(types.most_common())}`.
A `Counter` keeps its keys in first-occurrence (insertion) order and
`most_common()` is `sorted(items, key=count, reverse=True)` — a stable sort,
`reverse=True` preserving the order of equal counts.  For `SetVariable` the
stream is the concatenation of the sets in their iteration order (Python set
iteration order made explicit as a list here). -/

/-- Python dict/Counter key order: the distinct values of the stream in
first-occurrence order. -/
def uniquesInOrder {α : Type} [DecidableEq α] (l : List α) : List α :=
  l.foldl (fun acc v => if v ∈ acc then acc else acc ++ [v]) []

/-- The items of `Counter(l)` annotated with their insertion rank:
`(value, count, rank)` listed in first-occurrence order. -/
def counterEntries {α : Type} [DecidableEq α] (l : List α) : List (α × Nat × Nat) :=
  (List.enumFrom 0 (uniquesInOrder l)).map (fun p => (p.2, l.count p.2, p.1))

/-- The comparison of `most_common()`: weakly descending occurrence count. -/
def countGe {α : Type} (a b : α × Nat × Nat) : Prop := b.2.1 ≤ a.2.1

instance {α : Type} : DecidableRel (countGe (α := α)) :=
  fun a b => inferInstanceAs (Decidable (b.2.1 ≤ a.2.1))

/-- `Counter(l).most_common()`: the entries stably sorted by descending
count. -/
def most_common {α : Type} [DecidableEq α] (l : List α) : List (α × Nat × Nat) :=
  List.insertionSort countGe (counterEntries l)

theorem map_snd_enumFrom {α : Type} :
    ∀ (l : List α) (n : Nat), (List.enumFrom n l).map Prod.snd = l
  | [], _ => rfl
  | x :: xs, n => by
    simp only [List.enumFrom, List.map_cons, map_snd_enumFrom xs (n + 1)]

theorem counterEntries_pairwise_rank {α : Type} [DecidableEq α] (l : List α) :
    (counterEntries l).Pairwise (fun a b => a.2.2 < b.2.2) := by
  rw [counterEntries, List.pairwise_map]
  exact enumFrom_pairwise_fst_lt (uniquesInOrder l) 0

/-- C9: lexicon IDs are handed out along `most_common l`, which is a
permutation of the counter entries ordered by strictly greater count or —
on equal counts — strictly earlier insertion rank; every entry carries the
occurrence count of its value, and the projected value list is a permutation
of the distinct values.  The concrete tie-break: in `[5, 7, 5, 7, 9]` both
5 and 7 occur twice, and 5 keeps its earlier first occurrence. -/
theorem c9_lexicon_descending_count {α : Type} [DecidableEq α] (l : List α) :
    List.Perm (most_common l) (counterEntries l) ∧
    (most_common l).Pairwise
      (fun (a b : α × Nat × Nat) => b.2.1 < a.2.1 ∨ (a.2.1 = b.2.1 ∧ a.2.2 < b.2.2)) ∧
    (∀ e ∈ most_common l, e.2.1 = l.count e.1) ∧
    List.Perm ((most_common l).map (fun e => e.1)) (uniquesInOrder l) ∧
    (most_common ([5, 7, 5, 7, 9] : List Nat)).map (fun e => e.1) = [5, 7, 9] := by
  have hperm : List.Perm (most_common l) (counterEntries l) :=
    List.perm_insertionSort countGe (counterEntries l)
  refine ⟨hperm, ?_, ?_, ?_, by decide⟩
  · have h := insertionSort_pairwise_lexSplit countGe
      (fun (a b : α × Nat × Nat) => a.2.2 < b.2.2)
      (fun a b => Nat.le_total b.2.1 a.2.1)
      (fun a b c hab hbc => Nat.le_trans hbc hab)
      (counterEntries l) (counterEntries_pairwise_rank l)
    refine h.imp ?_
    rintro a b (⟨h1, h2⟩ | ⟨h1, h2, h3⟩)
    · have h1 : b.2.1 ≤ a.2.1 := h1
      have h2 : ¬ a.2.1 ≤ b.2.1 := h2
      exact Or.inl (by omega)
    · have h1 : b.2.1 ≤ a.2.1 := h1
      have h2 : a.2.1 ≤ b.2.1 := h2
      exact Or.inr ⟨Nat.le_antisymm h2 h1, h3⟩
  · intro e he
    have he2 : e ∈ counterEntries l := hperm.subset he
    rw [counterEntries] at he2
    obtain ⟨p, _, hp⟩ := List.mem_map.mp he2
    rw [← hp]
  · have hmap : (counterEntries l).map (fun e => e.1) = uniquesInOrder l := by
      rw [counterEntries, List.map_map]
      exact map_snd_enumFrom (uniquesInOrder l) 0
    exact hmap ▸ hperm.map (fun e => e.1)

/-! ## Vector (component_type 0x04, mode 0x00) -/

/-- `Vector.write`: on construction the flat int64 buffer is re-viewed with
shape `(d, n)` (`self.data.shape = (d, n)`), and `write` emits
`self.data[j][i]` for `i in range(n)`, inner `j in range(d)`; in the flat
row-major buffer `data[j][i]` sits at index `j*n + i`.  The numpy int64 cast
is `wrap64`. -/
def vectorPayload (items : List Int) (n d : Nat) : List Nat :=
  (List.range n).flatMap (fun i =>
    (List.range d).flatMap (fun j => int64le (wrap64 (items.getD (j * n + i) 0))))

/-- `Vector.bytelen`. -/
def vectorBytelen (n d : Nat) : Nat := n * d * 8

/-- The payload as claim C6 words it — "for i in 0..n, for j in 0..d, the
element at row i, column j", i.e. flat row-major index `i*d + j`.  This
definition follows the claim's words (for refinement comparison);
`vectorPayload` above is the source translation. -/
def vectorPayloadRowMajor (items : List Int) (n d : Nat) : List Nat :=
  (List.range n).flatMap (fun i =>
    (List.range d).flatMap (fun j => int64le (wrap64 (items.getD (i * d + j) 0))))

/-- The `Vector` component as assembled by `Vector.__init__`. -/
def vectorComponent (items : List Int) (name : List Nat) (n d : Nat) : Component :=
  ⟨0x04, 0x00, name, (n : Int), (d : Int), n * d * 8, vectorPayload items n d⟩

/-! ## Fixed 16-row blocking (`for i in range(0, n, BLOCKSIZE)` slices)

`chunksAux` renders the slicing loop `data[i:i+16]` structurally; the fuel
argument only bounds the recursion depth and `l.length` is always enough
(every step consumes at least one element), so `chunks16 l` is exactly the
list of slices. -/

def chunksAux {α : Type} : Nat → List α → List (List α)
  | 0, _ => []
  | _, [] => []
  | fuel + 1, x :: rest => ((x :: rest).take 16) :: chunksAux fuel ((x :: rest).drop 16)

def chunks16 {α : Type} (l : List α) : List (List α) := chunksAux l.length l

theorem chunksAux_succ_cons {α : Type} (fuel : Nat) (x : α) (rest : List α) :
    chunksAux (fuel + 1) (x :: rest) =
      ((x :: rest).take 16) :: chunksAux fuel ((x :: rest).drop 16) := rfl

theorem chunksAux_eq_of_le {α : Type} :
    ∀ (fuel : Nat) (l : List α), l.length ≤ fuel → chunksAux fuel l = chunks16 l
  | 0, l, h => by
    have : l = [] := List.length_eq_zero.mp (Nat.le_zero.mp h)
    subst this
    rfl
  | fuel + 1, [], _ => rfl
  | fuel + 1, x :: rest, h => by
    rw [chunks16, List.length_cons, chunksAux_succ_cons, chunksAux_succ_cons]
    have hlen : ((x :: rest).drop 16).length ≤ fuel := by
      simp only [List.length_drop, List.length_cons]
      have := Nat.le_of_succ_le_succ h
      omega
    have hlen2 : ((x :: rest).drop 16).length ≤ rest.length := by
      simp only [List.length_drop, List.length_cons]
      omega
    rw [chunksAux_eq_of_le fuel _ hlen, ← chunksAux_eq_of_le rest.length _ hlen2]

/-- Unfolding equation: on a nonempty list, `chunks16` is the 16-element
slice followed by the chunks of the rest. -/
theorem chunks16_cons {α : Type} (x : α) (rest : List α) :
    chunks16 (x :: rest) = ((x :: rest).take 16) :: chunks16 ((x :: rest).drop 16) := by
  rw [chunks16, List.length_cons, chunksAux_succ_cons]
  congr 1
  apply chunksAux_eq_of_le
  simp only [List.length_drop, List.length_cons]
  omega

/-- Every slice produced by the blocking loop is the full 16 rows, except —
when the row count is not a multiple of 16 — the final slice, which is the
trailing `length % 16` rows. -/
theorem mem_chunks16 {α : Type} : ∀ (l b : List α), b ∈ chunks16 l →
    b.length = 16 ∨
      (l.length % 16 ≠ 0 ∧ b = l.drop (l.length - l.length % 16) ∧
        b.length = l.length % 16)
  | [], b, hb => by simp [chunks16, chunksAux] at hb
  | x :: rest, b, hb => by
    rw [chunks16_cons] at hb
    rcases List.mem_cons.mp hb with hb | hmem
    · subst hb
      by_cases h16 : 16 ≤ (x :: rest).length
      · left
        rw [List.length_take]
        omega
      · right
        have hlt : (x :: rest).length < 16 := by omega
        have hmod : (x :: rest).length % 16 = (x :: rest).length := Nat.mod_eq_of_lt hlt
        have hpos : (x :: rest).length ≠ 0 := by simp
        refine ⟨by omega, ?_, by rw [List.length_take]; omega⟩
        rw [hmod, Nat.sub_self, List.drop_zero, List.take_of_length_le (by omega)]
    · by_cases h16 : 16 ≤ (x :: rest).length
      · have hd : ((x :: rest).drop 16).length = (x :: rest).length - 16 :=
          List.length_drop 16 (x :: rest)
        rcases mem_chunks16 ((x :: rest).drop 16) b hmem with h | ⟨h1, h2, h3⟩
        · exact Or.inl h
        · right
          rw [hd] at h1 h3
          refine ⟨by omega, ?_, by omega⟩
          rw [h2, List.drop_drop, hd]
          congr 1
          omega
      · have : (x :: rest).drop 16 = [] := by
          apply List.drop_eq_nil_of_le
          omega
        rw [this] at hmem
        simp [chunks16, chunksAux] at hmem
  termination_by l _ _ => l.length
  decreasing_by simp only [List.length_drop, List.length_cons]; omega

/-- C6: the Vector payload is *not* row-major for `d ≥ 2`: on the 2×2 matrix
`[[1,2],[3,4]]` the code emits `1, 3, 2, 4` while the claim's
row-by-row reading would emit `1, 2, 3, 4`. -/
theorem c6_vector_counterexample :
    vectorPayload [1, 2, 3, 4] 2 2 =
      int64le 1 ++ (int64le 3 ++ (int64le 2 ++ int64le 4)) ∧
    vectorPayloadRowMajor [1, 2, 3, 4] 2 2 =
      int64le 1 ++ (int64le 2 ++ (int64le 3 ++ int64le 4)) ∧
    vectorPayload [1, 2, 3, 4] 2 2 ≠ vectorPayloadRowMajor [1, 2, 3, 4] 2 2 := by
  refine ⟨by decide, by decide, by decide⟩

theorem length_flatMap_const {α : Type} (f : α → List Nat) (c : Nat)
    (h : ∀ a, (f a).length = c) :
    ∀ l : List α, (l.flatMap f).length = l.length * c
  | [] => by simp
  | x :: xs => by
    simp only [List.flatMap_cons, List.length_append, List.length_cons,
      length_flatMap_const f c h xs, h x]
    ring

/-- C6 (amended): the payload is the flat input read at index `j*n + i` for
`i` outer, `j` inner — the column-major reading of an `n × d` row-major
matrix; this coincides with the claimed row-by-row order exactly when
`d = 1`.  `bytelen` is `n*d*8` and equals the payload length; the component
carries type 0x04, mode 0, params `(n, d)`; the S2 instance
(`items=[1,2,3], n=3, d=1`) gives the 24 bytes of int64 1, 2, 3. -/
theorem c6_vector_payload_column_major (items : List Int) (name : List Nat) (n d : Nat) :
    (vectorPayload items n d).length = vectorBytelen n d ∧
    vectorPayload items n 1 = vectorPayloadRowMajor items n 1 ∧
    (vectorComponent items name n d).componentType = 0x04 ∧
    (vectorComponent items name n d).mode = 0x00 ∧
    (vectorComponent items name n d).param1 = (n : Int) ∧
    (vectorComponent items name n d).param2 = (d : Int) ∧
    (vectorComponent items name n d).bytelen = vectorBytelen n d ∧
    vectorPayload [1, 2, 3] 3 1 = int64le 1 ++ (int64le 2 ++ int64le 3) ∧
    (vectorPayload [1, 2, 3] 3 1).length = 24 := by
  refine ⟨?_, ?_, rfl, rfl, rfl, rfl, rfl, by decide, by decide⟩
  · rw [vectorPayload, vectorBytelen]
    have hinner : ∀ i : Nat,
        ((List.range d).flatMap
          (fun j => int64le (wrap64 (items.getD (j * n + i) 0)))).length = d * 8 := by
      intro i
      rw [length_flatMap_const _ 8 (fun j => int64le_length _), List.length_range]
    rw [length_flatMap_const _ (d * 8) hinner, List.length_range]
    ring
  · have h1 : List.range 1 = [0] := rfl
    simp [vectorPayload, vectorPayloadRowMajor, h1]

/-! ## VectorDelta (component_type 0x04, mode 0x02, src/src/ziggypy version) -/

/-- `np.array(items, dtype=int64)` reshaped to `(n, d)`: row `i` is the flat
slice `[i*d, (i+1)*d)`, each element cast to int64. -/
def reshapeRows (items : List Int) (n d : Nat) : List (List Int) :=
  (List.range n).map (fun i => ((items.drop (i * d)).take d).map wrap64)

/-- Per-slice branch of the block loop: a full slice (`remaining >= 16`) is
kept; a short final slice is laid into a 16-row block of `-1` sentinels
(`block = np.full((16, d), -1); block[:remaining] = data[i:]`). -/
def padTo16 (d : Nat) (rows : List (List Int)) : List (List Int) :=
  if 16 ≤ rows.length then rows
  else rows ++ List.replicate (16 - rows.length) (List.replicate d (-1))

/-- The 16-row blocks of `VectorDelta.__init__`. -/
def vdBlocks (items : List Int) (n d : Nat) : List (List (List Int)) :=
  (chunks16 (reshapeRows items n d)).map (padTo16 d)

/-- `delta[0] = block[0]`, `delta[i][j] = block[i][j] - block[i-1][j]` —
row `i ≥ 1` is the columnwise int64 difference with the previous row. -/
def deltaRows (block : List (List Int)) : List (List Int) :=
  match block with
  | [] => []
  | r0 :: rest =>
    r0 :: (rest.zip block).map
      (fun p => List.zipWith (fun a b => wrap64 (a - b)) p.1 p.2)

/-- One encoded block: for each column `j`, the delta values of that column
as varints, the columns concatenated. -/
def vdBlockBytes (d : Nat) (block : List (List Int)) : List Nat :=
  (List.range d).flatMap (fun j =>
    ((deltaRows block).map (fun row => row.getD j 0)).flatMap encode_varint)

/-- The sync-offset loop shared by VectorComp/VectorDelta/Set:
`sync = [start]; for b in blocks[:-1]: sync.append(prev + len(b))`, rendered
as a recursion over the byte lengths of all blocks but the last. -/
def syncFrom (start : Int) : List Nat → List Int
  | [] => [start]
  | len :: rest => start :: syncFrom (start + len) rest

/-- `VectorDelta.encoded`: `m = (n-1)//16 + 1` sync offsets starting at
`m*8`, then the blocks.  (For `n = 0` the source would fail its
`len(blocks) == m` assertion; no claim touches that case.) -/
def vectorDeltaEncoded (items : List Int) (n d : Nat) : List Nat :=
  let bblocks := (vdBlocks items n d).map (vdBlockBytes d)
  let m := (n - 1) / 16 + 1
  let sync := syncFrom (m * 8) (bblocks.dropLast.map List.length)
  sync.flatMap int64le ++ bblocks.flatten

theorem deltaRows_length : ∀ b : List (List Int), (deltaRows b).length = b.length
  | [] => rfl
  | r0 :: rest => by
    simp [deltaRows, List.length_zip]

/-- When the row count is not a multiple of 16 the *last* slice is the short
one. -/
theorem chunks16_getLast {α : Type} : ∀ (l : List α), l ≠ [] → l.length % 16 ≠ 0 →
    (chunks16 l).getLast? = some (l.drop (l.length - l.length % 16))
  | [], h, _ => absurd rfl h
  | x :: rest, _, hmod => by
    rw [chunks16_cons]
    by_cases h16 : (x :: rest).length ≤ 16
    · have hne : (x :: rest).drop 16 = [] := List.drop_eq_nil_of_le h16
      have hlt : (x :: rest).length < 16 := by
        rcases Nat.lt_or_ge (x :: rest).length 16 with h | h
        · exact h
        · exact absurd (by omega : (x :: rest).length = 16) (fun e => hmod (by rw [e]))
      rw [hne]
      have hm : (x :: rest).length % 16 = (x :: rest).length := Nat.mod_eq_of_lt hlt
      have hc : chunks16 ([] : List α) = [] := rfl
      rw [hc, hm, Nat.sub_self, List.drop_zero,
        List.take_of_length_le (Nat.le_of_lt hlt)]
      rfl
    · have hgt : 16 < (x :: rest).length := by omega
      have hne : (x :: rest).drop 16 ≠ [] := by
        intro e
        have := List.drop_eq_nil_iff.mp e
        omega
      obtain ⟨y, ys, hys⟩ := List.exists_cons_of_ne_nil hne
      have hd : ((x :: rest).drop 16).length = (x :: rest).length - 16 :=
        List.length_drop 16 (x :: rest)
      have hmod2 : ((x :: rest).drop 16).length % 16 ≠ 0 := by
        rw [hd]
        intro e
        exact hmod (by omega)
      have IH := chunks16_getLast ((x :: rest).drop 16) hne hmod2
      rw [hys] at IH ⊢
      rw [chunks16_cons] at IH ⊢
      rw [List.getLast?_cons_cons]
      rw [IH, ← hys, List.drop_drop, hd]
      congr 2
      have : (x :: rest).length % 16 = ((x :: rest).length - 16) % 16 := by omega
      omega
  termination_by l _ _ => l.length
  decreasing_by simp only [List.length_drop, List.length_cons]; omega

/-- `zipWith f (replicate d c) l = l.map (f c)` when `l` has at most `d`
elements. -/
theorem zipWith_replicate_left_of_le {α β : Type} (f : α → α → β) (c : α) :
    ∀ (l : List α) (d : Nat), l.length ≤ d →
      List.zipWith f (List.replicate d c) l = l.map (f c)
  | [], d, _ => by simp
  | x :: xs, 0, h => by simp at h
  | x :: xs, d + 1, h => by
    rw [List.replicate_succ, List.zipWith_cons_cons, List.map_cons,
      zipWith_replicate_left_of_le f c xs d (by simpa using h)]

/-- The delta row right after the real rows of a padded block is the
columnwise difference between the pad row `c` and the last real row. -/
theorem deltaRows_sentinel_step :
    ∀ (t : List (List Int)) (s0 c : List Int) (P : List (List Int)),
      (deltaRows (s0 :: (t ++ c :: P)))[t.length + 1]? =
        ((s0 :: t).getLast?).map
          (fun lr => List.zipWith (fun a b => wrap64 (a - b)) c lr)
  | [], s0, c, P => by
    simp [deltaRows, List.zip_cons_cons]
  | s1 :: t, s0, c, P => by
    have IH := deltaRows_sentinel_step t s1 c P
    simp only [deltaRows, List.cons_append, List.zip_cons_cons, List.map_cons,
      List.length_cons] at IH ⊢
    rw [List.getElem?_cons_succ, List.getElem?_cons_succ]
    rw [List.getElem?_cons_succ] at IH
    rw [List.getLast?_cons_cons]
    exact IH

/-- C7: when `n` is not a multiple of 16 every block — the padded final one
included — has exactly 16 rows, so each column of each block is encoded as
exactly 16 varints; the final block is the trailing `n % 16` real rows
followed by rows of `-1` sentinels appended *before* the delta pass, and the
delta row at index `n % 16` (the first stored delta of the padding region)
is the pointwise difference `-1 - v` against the last real row. -/
theorem c7_vectordelta_pads_before_delta (items : List Int) (n d : Nat)
    (hmod : n % 16 ≠ 0) :
    (∀ b ∈ vdBlocks items n d, b.length = 16 ∧ (deltaRows b).length = 16 ∧
      ∀ j : Nat, ((deltaRows b).map (fun row => row.getD j 0)).length = 16) ∧
    (vdBlocks items n d).getLast? = some
      ((reshapeRows items n d).drop (n - n % 16)
        ++ List.replicate (16 - n % 16) (List.replicate d (-1))) ∧
    (deltaRows ((vdBlocks items n d).getLastD []))[n % 16]? =
      ((reshapeRows items n d)[n - 1]?).map
        (fun lr => lr.map (fun v => wrap64 (-1 - v))) := by
  have hn : n ≠ 0 := fun e => hmod (by rw [e])
  set data := reshapeRows items n d with hdata_def
  have hdata : data.length = n := by
    rw [hdata_def, reshapeRows, List.length_map, List.length_range]
  have hmodd : data.length % 16 ≠ 0 := by rw [hdata]; exact hmod
  have hdne : data ≠ [] := by
    intro e
    rw [e] at hdata
    exact hn hdata.symm
  have hblen : ∀ c ∈ chunks16 data, (padTo16 d c).length = 16 := by
    intro c hc
    rcases mem_chunks16 data c hc with h | ⟨h1, h2, h3⟩
    · rw [padTo16, if_pos (by omega)]
      exact h
    · have hlt : c.length < 16 := by
        rw [h3]
        exact Nat.mod_lt _ (by omega)
      rw [padTo16, if_neg (by omega), List.length_append, List.length_replicate]
      omega
  have hlast : (chunks16 data).getLast? =
      some (data.drop (data.length - data.length % 16)) :=
    chunks16_getLast data hdne hmodd
  rw [hdata] at hlast
  have hshortlen : (data.drop (n - n % 16)).length = n % 16 := by
    rw [List.length_drop, hdata]
    omega
  have hlast2 : (vdBlocks items n d).getLast? = some
      (data.drop (n - n % 16)
        ++ List.replicate (16 - n % 16) (List.replicate d (-1))) := by
    rw [vdBlocks, List.getLast?_map, ← hdata_def, hlast, Option.map_some']
    rw [padTo16, if_neg (by rw [hshortlen]; omega), hshortlen]
  refine ⟨?_, hlast2, ?_⟩
  · intro b hb
    obtain ⟨c, hc, hcb⟩ := List.mem_map.mp hb
    subst hcb
    exact ⟨hblen c hc, by rw [deltaRows_length]; exact hblen c hc,
      fun j => by rw [List.length_map, deltaRows_length]; exact hblen c hc⟩
  · have hgld : (vdBlocks items n d).getLastD [] =
        data.drop (n - n % 16)
          ++ List.replicate (16 - n % 16) (List.replicate d (-1)) := by
      rw [List.getLastD_eq_getLast?, hlast2, Option.getD_some]
    rw [hgld]
    have hSne : data.drop (n - n % 16) ≠ [] := by
      intro e
      rw [e] at hshortlen
      exact hmod hshortlen.symm
    obtain ⟨s0, t, hS⟩ := List.exists_cons_of_ne_nil hSne
    have hrep : List.replicate (16 - n % 16) (List.replicate d (-1 : Int)) =
        List.replicate d (-1) :: List.replicate (15 - n % 16) (List.replicate d (-1)) := by
      rw [← List.replicate_succ]
      congr 1
      have : n % 16 < 16 := Nat.mod_lt _ (by omega)
      omega
    rw [hS, hrep]
    have hidx : n % 16 = t.length + 1 := by
      rw [hS] at hshortlen
      simp only [List.length_cons] at hshortlen
      omega
    rw [hidx]
    rw [List.cons_append]
    rw [deltaRows_sentinel_step]
    rw [← hS]
    have hgl : (data.drop (n - n % 16)).getLast? = data[n - 1]? := by
      rw [List.getLast?_eq_getElem?, List.getElem?_drop, hshortlen]
      congr 1
      have h1 : n % 16 ≤ n := Nat.mod_le n 16
      have h2 : 1 ≤ n % 16 := by omega
      omega
    rw [hgl]
    have hrow : data[n - 1]? =
        some (((items.drop ((n - 1) * d)).take d).map wrap64) := by
      rw [hdata_def, reshapeRows, List.getElem?_map, List.getElem?_range (by omega)]
      rfl
    rw [hrow]
    simp only [Option.map_some', Option.some.injEq]
    rw [zipWith_replicate_left_of_le _ _ _ d
      (by rw [List.length_map]; exact (List.length_take_le d _))]

/-- Witness for C7 at `items = [10, 12, 15, 20]`, `n = 4`, `d = 1`: the final
(only) block is the four real rows followed by twelve sentinel rows. -/
theorem c7_vectordelta_witness :
    (vdBlocks [10, 12, 15, 20] 4 1).getLast? =
      some [[10], [12], [15], [20], [-1], [-1], [-1], [-1], [-1], [-1], [-1],
        [-1], [-1], [-1], [-1], [-1]] := by
  have h := (c7_vectordelta_pads_before_delta [10, 12, 15, 20] 4 1 (by decide)).2.1
  rw [h]
  rfl

/-! ## Set (component_type 0x05, mode 0x01) -/

/-- Modelled from the spec: the grouping helper `batched` lives in
src/src/ziggypy/util.py, which is not among the sources; the spec says
"Group the n sets into blocks of 16 (the final block may be short)", which is
exactly the 16-slicing `chunks16`. -/
def batched16 {α : Type} (l : List α) : List (List α) := chunks16 l

/-- Delta list: first element verbatim, then consecutive differences
(plain Python ints here, no numpy wrap). -/
def deltaList : List Int → List Int
  | [] => []
  | x :: xs => x :: List.zipWith (fun a b => a - b) xs (x :: xs)

/-- One set delta-encoded to varints; Python raises IndexError on an empty
set (`delta = [set[0]]`), modelled as `none`. -/
def encodeSet (s : List Int) : Option (List Nat) :=
  match s with
  | [] => none
  | x :: xs => some ((deltaList (x :: xs)).flatMap encode_varint)

/-- The running `itemoffset` values: byte offset of each encoded set inside
`encoded_items`. -/
def runningOffsets : Int → List Int → List Int
  | _, [] => []
  | acc, len :: rest => acc :: runningOffsets (acc + len) rest

/-- One Set block: varints of the delta-compressed (padded) offsets, then
varints of the (padded) lengths, then the concatenated encoded sets.
Offsets pad with `-1`, lengths with `0`, to 16 entries. -/
def setBlock (batch : List (List Int)) : Option (List Nat) := do
  let encs ← batch.mapM encodeSet
  let lengths := encs.map (fun e => (e.length : Int))
  let offsets := runningOffsets 0 lengths
  let offsetsP := offsets ++ List.replicate (16 - offsets.length) (-1)
  let lengthsP := lengths ++ List.replicate (16 - lengths.length) 0
  pure ((deltaList offsetsP).flatMap encode_varint
    ++ lengthsP.flatMap encode_varint
    ++ encs.flatten)

/-- All Set blocks. -/
def setBlocks (sets : List (List Int)) : Option (List (List Nat)) :=
  (batched16 sets).mapM setBlock

/-- The Set synchronisation vector: `sync = [0]` extended with the running
sums over `blocks[:-1]`. -/
def setSync (sets : List (List Int)) : Option (List Int) := do
  let blocks ← setBlocks sets
  pure (syncFrom 0 (blocks.dropLast.map List.length))

/-- `Set.bytelen`: `len(self.sync)*8 + sum(len(b) for b in self.blocks)`. -/
def setBytelen (sets : List (List Int)) : Option Nat := do
  let blocks ← setBlocks sets
  pure ((syncFrom 0 (blocks.dropLast.map List.length)).length * 8
    + (blocks.map List.length).sum)

theorem mem_of_mem_chunks16 {α : Type} : ∀ (l b : List α), b ∈ chunks16 l →
    ∀ x ∈ b, x ∈ l
  | [], b, hb => by simp [chunks16, chunksAux] at hb
  | y :: rest, b, hb => by
    rw [chunks16_cons] at hb
    rcases List.mem_cons.mp hb with h | h
    · subst h
      exact fun x hx => List.mem_of_mem_take hx
    · by_cases h16 : (y :: rest).length ≤ 16
      · rw [List.drop_eq_nil_of_le h16] at h
        simp [chunks16, chunksAux] at h
      · intro x hx
        exact List.mem_of_mem_drop
          (mem_of_mem_chunks16 ((y :: rest).drop 16) b h x hx)
  termination_by l _ _ => l.length
  decreasing_by simp only [List.length_drop, List.length_cons]; omega

theorem chunks16_length {α : Type} : ∀ (l : List α), l ≠ [] →
    (chunks16 l).length = (l.length - 1) / 16 + 1
  | [], h => absurd rfl h
  | x :: rest, _ => by
    rw [chunks16_cons]
    by_cases h16 : (x :: rest).length ≤ 16
    · rw [List.drop_eq_nil_of_le h16]
      have hc : chunks16 ([] : List α) = [] := rfl
      rw [hc]
      have h1 : (x :: rest).length = rest.length + 1 := List.length_cons x rest
      simp only [List.length_cons, List.length_nil]
      omega
    · have hne : (x :: rest).drop 16 ≠ [] := by
        intro e
        have := List.drop_eq_nil_iff.mp e
        omega
      rw [List.length_cons, chunks16_length ((x :: rest).drop 16) hne,
        List.length_drop]
      have hxx : (x :: rest).length = rest.length + 1 := List.length_cons x rest
      omega
  termination_by l _ => l.length
  decreasing_by simp only [List.length_drop, List.length_cons]; omega

theorem mapM_option_some {α β : Type} (f : α → Option β) :
    ∀ l : List α, (∀ a ∈ l, f a ≠ none) →
      ∃ r, l.mapM f = some r ∧ r.length = l.length
  | [], _ => ⟨[], rfl, rfl⟩
  | a :: l, h => by
    obtain ⟨b, hb⟩ : ∃ b, f a = some b := by
      cases hfa : f a with
      | none => exact absurd hfa (h a (List.mem_cons_self a l))
      | some b => exact ⟨b, rfl⟩
    obtain ⟨r, hr, hlen⟩ :=
      mapM_option_some f l (fun a ha => h a (List.mem_cons_of_mem _ ha))
    refine ⟨b :: r, ?_, by simp [hlen]⟩
    rw [List.mapM_cons, hb, hr]
    rfl

theorem syncFrom_length : ∀ (ls : List Nat) (s : Int),
    (syncFrom s ls).length = ls.length + 1
  | [], _ => rfl
  | l :: rest, s => by
    simp [syncFrom, syncFrom_length rest (s + l)]

theorem syncFrom_getElem? : ∀ (ls : List Nat) (s : Int) (i : Nat), i ≤ ls.length →
    (syncFrom s ls)[i]? = some (s + (((ls.take i).sum : Nat) : Int))
  | ls, s, 0, _ => by cases ls <;> simp [syncFrom]
  | [], _, i + 1, h => by exact absurd h (by simp)
  | l :: rest, s, i + 1, h => by
    rw [syncFrom, List.getElem?_cons_succ,
      syncFrom_getElem? rest (s + l) i (by simpa using h)]
    rw [List.take_succ_cons, List.sum_cons]
    congr 1
    push_cast
    ring

/-- C5 counterexample: for a single one-element set there is m = 1 block,
and the code emits a **one**-entry sync table `[0]` — not the claimed
`m + 1 = 2` entries — with `bytelen = 1*8 + 33 = 41`, not `2*8 + 33`. -/
theorem c5_set_sync_counterexample :
    setSync [[0]] = some [0] ∧
    (batched16 [([0] : List Int)]).length = 1 ∧
    (setSync [[0]]).map List.length = some 1 ∧
    ¬ (setSync [[0]]).map List.length = some 2 ∧
    setBytelen [[0]] = some 41 := by decide

/-- C5 (amended): for nonempty input whose sets are all nonempty, the Set
payload head is an **m**-entry sync table (`m = ⌈n/16⌉` blocks): first entry
0, entry `i` the total byte size of the first `i` blocks (offsets into the
block region), with `bytelen = 8*m +` total block bytes; there is no
(m+1)-th end-marker entry. -/
theorem c5_set_sync_m_entries (sets : List (List Int))
    (hset : ∀ s ∈ sets, s ≠ []) (hne : sets ≠ []) :
    (setBlocks sets).isSome = true ∧
    ((setBlocks sets).getD []).length = (sets.length - 1) / 16 + 1 ∧
    setSync sets =
      some (syncFrom 0 ((((setBlocks sets).getD []).dropLast).map List.length)) ∧
    (syncFrom 0 ((((setBlocks sets).getD []).dropLast).map List.length)).length
      = ((setBlocks sets).getD []).length ∧
    (∀ i, i < ((setBlocks sets).getD []).length →
      (syncFrom 0 ((((setBlocks sets).getD []).dropLast).map List.length))[i]? =
        some ((((((setBlocks sets).getD []).take i).map List.length).sum : Nat) : Int)) ∧
    setBytelen sets = some (((setBlocks sets).getD []).length * 8
      + (((setBlocks sets).getD []).map List.length).sum) := by
  have hblock : ∀ batch ∈ batched16 sets, setBlock batch ≠ none := by
    intro batch hb
    have hmem : ∀ s ∈ batch, encodeSet s ≠ none := by
      intro s hs
      have hs2 := hset s (mem_of_mem_chunks16 sets batch hb s hs)
      cases s with
      | nil => exact absurd rfl hs2
      | cons x xs => simp [encodeSet]
    obtain ⟨encs, hencs, _⟩ := mapM_option_some encodeSet batch hmem
    intro hnone
    rw [setBlock, hencs] at hnone
    simp at hnone
  obtain ⟨bs, hbs, hbslen⟩ := mapM_option_some setBlock (batched16 sets) hblock
  have hbs2 : setBlocks sets = some bs := hbs
  have hgd : (setBlocks sets).getD [] = bs := by rw [hbs2]; rfl
  have hm : bs.length = (sets.length - 1) / 16 + 1 := by
    rw [hbslen, batched16, chunks16_length sets hne]
  have hmpos : 1 ≤ bs.length := by omega
  have hsynclen : (syncFrom 0 ((bs.dropLast).map List.length)).length = bs.length := by
    rw [syncFrom_length, List.length_map, List.length_dropLast]
    omega
  have hsync2 : setSync sets = some (syncFrom 0 ((bs.dropLast).map List.length)) := by
    rw [setSync, hbs2]
    rfl
  have hbyte2 : setBytelen sets =
      some ((syncFrom 0 ((bs.dropLast).map List.length)).length * 8
        + (bs.map List.length).sum) := by
    rw [setBytelen, hbs2]
    rfl
  refine ⟨by rw [hbs2]; rfl, by rw [hgd]; exact hm, by rw [hgd]; exact hsync2,
    by rw [hgd]; exact hsynclen, ?_, ?_⟩
  · intro i hi
    rw [hgd] at hi ⊢
    have hils : i ≤ ((bs.dropLast).map List.length).length := by
      rw [List.length_map, List.length_dropLast]
      omega
    rw [syncFrom_getElem? _ 0 i hils]
    have htake : ((bs.dropLast).map List.length).take i = (bs.take i).map List.length := by
      rw [← List.map_take, List.dropLast_eq_take, List.take_take]
      congr 2
      show min i (bs.length - 1) = i
      omega
    rw [htake, zero_add]
  · rw [hgd, hbyte2, hsynclen]

/-- Witness for C5 at two sets in one block: the sync table of
`[[0], [1, 3]]` has exactly one entry (its single block), not two. -/
theorem c5_set_sync_witness :
    ((∀ s ∈ ([[0], [1, 3]] : List (List Int)), s ≠ []) ∧
      ([[0], [1, 3]] : List (List Int)) ≠ []) ∧
    setSync [[0], [1, 3]] =
      some (syncFrom 0
        ((((setBlocks [[0], [1, 3]]).getD []).dropLast).map List.length)) ∧
    (syncFrom 0
        ((((setBlocks [[0], [1, 3]]).getD []).dropLast).map List.length)).length
      = ((setBlocks [[0], [1, 3]]).getD []).length :=
  ⟨⟨by decide, by decide⟩,
    (c5_set_sync_m_entries [[0], [1, 3]] (by decide) (by decide)).2.2.1,
    (c5_set_sync_m_entries [[0], [1, 3]] (by decide) (by decide)).2.2.2.1⟩

/-! ## InvertedIndex (component_type 0x07, mode 0x01) -/

/-- The posting-list build of `InvertedIndex.__init__`:

    postings = [[] for _ in types]
    for i, occurences in enumerate(positions):
        for t in occurences: postings[t].append(i)

`types` contributes only its length `k`; indexing `postings[t]` with
`t ≥ k` raises (modelled as `none`). -/
def buildPostings (k : Nat) (positions : List (List Nat)) : Option (List (List Nat)) :=
  (List.enumFrom 0 positions).foldlM
    (fun post ic =>
      ic.2.foldlM
        (fun post t =>
          if t < post.length then some (post.set t (post.getD t [] ++ [ic.1]))
          else none)
        post)
    (List.replicate k [])

/-- `postings_delta[j] = [postings[j][0]] ++ diffs`: raises IndexError when a
posting list is empty (`postings[j][0]`). -/
def deltaPostings (postings : List (List Nat)) : Option (List (List Int)) :=
  postings.mapM (fun p =>
    match p with
    | [] => none
    | x :: xs => some (deltaList ((x :: xs).map (fun v => (v : Int)))))

/-- The encoded `InvertedIndex` payload: per-type header entries of
`(int64 frequency, int64 offset)` with offsets starting at `k*16`, then the
per-type blocks `varint(0) ‖ varints(deltas)`. -/
def invertedIndexEncoded (k : Nat) (positions : List (List Nat)) : Option (List Nat) := do
  let postings ← buildPostings k positions
  let pdelta ← deltaPostings postings
  let pencoded := pdelta.map (fun pd => encode_varint 0 ++ pd.flatMap encode_varint)
  let freqs := postings.map (fun p => (p.length : Int))
  let offsets := runningOffsets (k * 16) (pencoded.map (fun e => (e.length : Int)))
  let header := (freqs.zip offsets).flatMap (fun p => int64le p.1 ++ int64le p.2)
  pure (header ++ pencoded.flatten)

theorem mapM_option_none {α β : Type} (f : α → Option β) :
    ∀ l : List α, (∃ a ∈ l, f a = none) → l.mapM f = none
  | [], h => by simp at h
  | a :: l, h => by
    rw [List.mapM_cons]
    rcases h with ⟨x, hx, hfx⟩
    rcases List.mem_cons.mp hx with h | h
    · subst h
      rw [hfx]
      rfl
    · cases hfa : f a with
      | none => rfl
      | some b =>
        rw [mapM_option_none f l ⟨x, h, hfx⟩]
        rfl

theorem runningOffsets_length : ∀ (ls : List Int) (s : Int),
    (runningOffsets s ls).length = ls.length
  | [], _ => rfl
  | l :: rest, s => by
    simp [runningOffsets, runningOffsets_length rest (s + l)]

/-- Inner `for t in occurences` loop: with all ids in range, the fold
succeeds and preserves the length of the postings table. -/
theorem postLoop_some (i : Nat) : ∀ (occ : List Nat) (post : List (List Nat)),
    (∀ t ∈ occ, t < post.length) →
    ∃ post2,
      occ.foldlM
        (fun post t =>
          if t < post.length then some (post.set t (post.getD t [] ++ [i]))
          else none)
        post = some post2 ∧ post2.length = post.length
  | [], post, _ => ⟨post, rfl, rfl⟩
  | t :: occ, post, h => by
    rw [List.foldlM_cons, if_pos (h t (List.mem_cons_self t occ))]
    have hlen : (post.set t (post.getD t [] ++ [i])).length = post.length :=
      List.length_set post t _
    obtain ⟨post2, hp2, hlen2⟩ := postLoop_some i occ (post.set t (post.getD t [] ++ [i]))
      (fun u hu => by rw [hlen]; exact h u (List.mem_cons_of_mem _ hu))
    exact ⟨post2, hp2, by rw [hlen2, hlen]⟩

/-- Outer `for i, occurences in enumerate(positions)` loop: with all ids in
range, the build succeeds and the postings table keeps its length. -/
theorem buildLoop_some : ∀ (positions : List (List Nat)) (n : Nat) (post : List (List Nat)),
    (∀ occ ∈ positions, ∀ t ∈ occ, t < post.length) →
    ∃ post2,
      (List.enumFrom n positions).foldlM
        (fun post ic =>
          ic.2.foldlM
            (fun post t =>
              if t < post.length then some (post.set t (post.getD t [] ++ [ic.1]))
              else none)
            post)
        post = some post2 ∧ post2.length = post.length
  | [], _, post, _ => ⟨post, rfl, rfl⟩
  | occ :: rest, n, post, h => by
    rw [List.enumFrom_cons, List.foldlM_cons]
    obtain ⟨mid, hmid, hmidlen⟩ :=
      postLoop_some n occ post (h occ (List.mem_cons_self occ rest))
    rw [hmid]
    obtain ⟨post2, hp2, hlen2⟩ := buildLoop_some rest (n + 1) mid
      (fun o ho t ht => by rw [hmidlen]; exact h o (List.mem_cons_of_mem _ ho) t ht)
    exact ⟨post2, hp2, by rw [hlen2, hmidlen]⟩

theorem buildPostings_some (k : Nat) (positions : List (List Nat))
    (hvalid : ∀ occ ∈ positions, ∀ t ∈ occ, t < k) :
    ∃ post, buildPostings k positions = some post ∧ post.length = k := by
  obtain ⟨post2, hp2, hlen2⟩ := buildLoop_some positions 0 (List.replicate k [])
    (fun occ ho t ht => by rw [List.length_replicate]; exact hvalid occ ho t ht)
  exact ⟨post2, hp2, by rw [hlen2, List.length_replicate]⟩

/-- Dropping `c*t` bytes off a flatMap of `c`-byte pieces drops the first
`t` pieces. -/
theorem drop_flatMap_const {α : Type} (f : α → List Nat) (c : Nat)
    (hc : ∀ a, (f a).length = c) :
    ∀ (l : List α) (t : Nat), (l.flatMap f).drop (c * t) = (l.drop t).flatMap f
  | l, 0 => by simp
  | [], t + 1 => by simp
  | a :: l, t + 1 => by
    have h1 : c * (t + 1) = (f a).length + c * t := by rw [hc]; ring
    rw [List.flatMap_cons, h1, List.drop_append,
      drop_flatMap_const f c hc l t, List.drop_succ_cons]

/-- C10: with every type id in range, the posting build succeeds with one
list per type; if any type's posting list is empty the constructor fails with
the index-out-of-range of `postings[j][0]` (delta encoding reads the first
element), and under the precondition that every type occurs at least once
the construction succeeds and the header entry of each type `t` starts with
the int64 frequency `len(postings[t])`. -/
theorem c10_inverted_index (k : Nat) (positions : List (List Nat))
    (hvalid : ∀ occ ∈ positions, ∀ t ∈ occ, t < k) :
    ∃ postings, buildPostings k positions = some postings ∧ postings.length = k ∧
      ((∃ p ∈ postings, p = []) → invertedIndexEncoded k positions = none) ∧
      ((∀ p ∈ postings, p ≠ []) →
        ∃ enc, invertedIndexEncoded k positions = some enc ∧
          ∀ t : Nat, t < k →
            (enc.drop (16 * t)).take 8 =
              int64le ((postings.getD t []).length : Int)) := by
  obtain ⟨postings, hpost, hlen⟩ := buildPostings_some k positions hvalid
  refine ⟨postings, hpost, hlen, ?_, ?_⟩
  · rintro ⟨p, hp, hpe⟩
    have hdelta : deltaPostings postings = none := by
      apply mapM_option_none
      refine ⟨p, hp, ?_⟩
      subst hpe
      rfl
    simp [invertedIndexEncoded, hpost, hdelta]
  · intro hne
    have hdel : ∀ p ∈ postings,
        (fun p => match p with
          | [] => none
          | x :: xs => some (deltaList ((x :: xs).map (fun v => (v : Int))))) p ≠ none := by
      intro p hp
      cases p with
      | nil => exact absurd rfl (hne [] hp)
      | cons x xs => simp
    obtain ⟨pdelta, hpd, hpdlen⟩ := mapM_option_some _ postings hdel
    have hdp : deltaPostings postings = some pdelta := hpd
    refine ⟨((postings.map (fun p => (p.length : Int))).zip
        (runningOffsets (k * 16)
          ((pdelta.map (fun pd => encode_varint 0 ++ pd.flatMap encode_varint)).map
            (fun e => (e.length : Int))))).flatMap
        (fun p => int64le p.1 ++ int64le p.2)
      ++ (pdelta.map (fun pd => encode_varint 0 ++ pd.flatMap encode_varint)).flatten,
      ?_, ?_⟩
    · simp [invertedIndexEncoded, hpost, hdp]
    · intro t ht
      have h16 : ∀ p : Int × Int, (int64le p.1 ++ int64le p.2).length = 16 := by
        intro p
        rw [List.length_append, int64le_length, int64le_length]
      have hfl : (postings.map (fun p => (p.length : Int))).length = k := by
        rw [List.length_map, hlen]
      have hol : (runningOffsets (k * 16)
          ((pdelta.map (fun pd => encode_varint 0 ++ pd.flatMap encode_varint)).map
            (fun e => (e.length : Int)))).length = k := by
        rw [runningOffsets_length, List.length_map, List.length_map, hpdlen, hlen]
      have hzl : ((postings.map (fun p => (p.length : Int))).zip
          (runningOffsets (k * 16)
            ((pdelta.map (fun pd => encode_varint 0 ++ pd.flatMap encode_varint)).map
              (fun e => (e.length : Int))))).length = k := by
        rw [List.length_zip, hfl, hol]
        exact Nat.min_self k
      have hhl : (((postings.map (fun p => (p.length : Int))).zip
          (runningOffsets (k * 16)
            ((pdelta.map (fun pd => encode_varint 0 ++ pd.flatMap encode_varint)).map
              (fun e => (e.length : Int))))).flatMap
          (fun p => int64le p.1 ++ int64le p.2)).length = k * 16 := by
        rw [length_flatMap_const _ 16 h16, hzl]
      rw [List.drop_append_of_le_length (by rw [hhl]; omega)]
      rw [drop_flatMap_const _ 16 h16]
      have hzt : t < ((postings.map (fun p => (p.length : Int))).zip
          (runningOffsets (k * 16)
            ((pdelta.map (fun pd => encode_varint 0 ++ pd.flatMap encode_varint)).map
              (fun e => (e.length : Int))))).length := by
        rw [hzl]
        exact ht
      rw [List.drop_eq_getElem_cons hzt, List.flatMap_cons, List.append_assoc,
        List.append_assoc]
      rw [List.take_append_of_le_length (by rw [int64le_length])]
      rw [List.take_of_length_le (by rw [int64le_length])]
      have hb1 : t < (postings.map (fun p => (p.length : Int))).length := by
        rw [hfl]
        exact ht
      have hb2 : t < (runningOffsets (k * 16)
          ((pdelta.map (fun pd => encode_varint 0 ++ pd.flatMap encode_varint)).map
            (fun e => (e.length : Int)))).length := by
        rw [hol]
        exact ht
      have hb3 : t < postings.length := by
        rw [hlen]
        exact ht
      have hget : ((postings.map (fun p => (p.length : Int))).zip
          (runningOffsets (k * 16)
            ((pdelta.map (fun pd => encode_varint 0 ++ pd.flatMap encode_varint)).map
              (fun e => (e.length : Int)))))[t] =
          ((postings.map (fun p => (p.length : Int)))[t],
            (runningOffsets (k * 16)
              ((pdelta.map (fun pd => encode_varint 0 ++ pd.flatMap encode_varint)).map
                (fun e => (e.length : Int))))[t]) :=
        List.getElem_zip
      rw [hget]
      have hgm : (postings.map (fun p => (p.length : Int)))[t] =
          ((postings[t]).length : Int) := List.getElem_map _
      have hgd : postings.getD t [] = postings[t] := by
        rw [List.getD_eq_getElem?_getD, List.getElem?_eq_getElem hb3]
        rfl
      rw [hgm, hgd]

/-- Witness for C10: with K = 2 types, the stream `[[0]]` leaves type 1
without occurrences and construction fails; on `[[0], [1], [0]]` it succeeds
and the second header entry starts with frequency 1. -/
theorem c10_inverted_index_witness :
    invertedIndexEncoded 2 [[0]] = none ∧
    (∃ enc, invertedIndexEncoded 2 [[0], [1], [0]] = some enc ∧
      (enc.drop 16).take 8 = int64le 1) := by
  constructor
  · obtain ⟨postings, hp, hlen, hnone, _⟩ := c10_inverted_index 2 [[0]] (by decide)
    apply hnone
    have hval : buildPostings 2 [[0]] = some [[0], []] := by decide
    rw [hval] at hp
    injection hp with hp
    exact ⟨[], by rw [← hp]; decide, rfl⟩
  · obtain ⟨postings, hp, hlen, _, hsome⟩ :=
      c10_inverted_index 2 [[0], [1], [0]] (by decide)
    have hval : buildPostings 2 [[0], [1], [0]] = some [[0, 2], [1]] := by decide
    rw [hval] at hp
    injection hp with hp
    obtain ⟨enc, henc, hfreq⟩ := hsome (by rw [← hp]; decide)
    refine ⟨enc, henc, ?_⟩
    have h1 := hfreq 1 (by decide)
    rw [← hp] at h1
    simpa using h1

/-! ## IndexCompressed (component_type 0x06, mode 0x01, src/src/ziggypy
version with final-block padding) -/

/-- `np.array(pairs, dtype=np.uint64)`: both columns reduced mod `2^64`. -/
def u64pairs (pairs : List (Nat × Nat)) : List (Nat × Nat) :=
  pairs.map (fun p => (p.1 % 2 ^ 64, p.2 % 2 ^ 64))

/-- The uint64 bit pattern of -1 used for padding rows. -/
def u64neg1 : Nat := 2 ^ 64 - 1

/-- One iteration of the blocking loop, state `(blocks, bstart, blen)`:

    if blen < 16: blen += 1
    else:
        if data[i][0] == data[i-1][0]: blen += 1          # overflow
        else: blocks.append(data[bstart:i]); bstart = i; blen = 1 -/
def blockStep (data : List (Nat × Nat))
    (st : List (List (Nat × Nat)) × Nat × Nat) (i : Nat) :
    List (List (Nat × Nat)) × Nat × Nat :=
  if st.2.2 < 16 then (st.1, st.2.1, st.2.2 + 1)
  else if (data.getD i (0, 0)).1 = (data.getD (i - 1) (0, 0)).1 then
    (st.1, st.2.1, st.2.2 + 1)
  else
    (st.1 ++ [(data.drop st.2.1).take (i - st.2.1)], i, 1)

/-- The blocking loop over `i in range(len(data))`. -/
def blockLoop (data : List (Nat × Nat)) : List (List (Nat × Nat)) × Nat × Nat :=
  (List.range data.length).foldl (blockStep data) ([], 0, 0)

/-- Final-block handling of `IndexCompressed.__init__`: a short trailing
block is laid into 16 rows of `(-1, -1)` (uint64 all-ones) and the padding
count recorded; returns `(blocks, block_padding)`. -/
def blockify (data : List (Nat × Nat)) : List (List (Nat × Nat)) × Nat :=
  let st := blockLoop data
  if st.2.2 ≠ 0 then
    if st.2.2 < 16 then
      (st.1 ++ [data.drop st.2.1 ++ List.replicate (16 - st.2.2) (u64neg1, u64neg1)],
        16 - st.2.2)
    else (st.1 ++ [data.drop st.2.1], 0)
  else (st.1, 0)

/-- The sorted uint64 pair matrix (`sorted=False` applies the two-pass
sort). -/
def icData (pairs : List (Nat × Nat)) (srtd : Bool) : List (Nat × Nat) :=
  if srtd then u64pairs pairs else indexSortPairs (u64pairs pairs)

def icBlocks (pairs : List (Nat × Nat)) (srtd : Bool) : List (List (Nat × Nat)) :=
  (blockify (icData pairs srtd)).1

def icPadding (pairs : List (Nat × Nat)) (srtd : Bool) : Nat :=
  (blockify (icData pairs srtd)).2

/-- `r = len(blocks) * 16 - block_padding`, the number of regular items. -/
def icR (pairs : List (Nat × Nat)) (srtd : Bool) : Int :=
  ((icBlocks pairs srtd).length * 16 : Nat) - ((icPadding pairs srtd : Nat) : Int)

/-- uint64 deltas of the first 16 keys (numpy uint64 wrap-around
subtraction). -/
def icKeyDeltas (b : List (Nat × Nat)) : List Nat :=
  let keys := (b.take 16).map Prod.fst
  List.zipWith (fun cur prev => (cur + 2 ^ 64 - prev) % 2 ^ 64) (keys.drop 1) keys

/-- int64 deltas of all positions (`positions = b[:,1].astype(np.int64)`). -/
def icPosDeltas (b : List (Nat × Nat)) : List Int :=
  let positions := b.map (fun p => wrap64 (p.2 : Int))
  List.zipWith (fun cur prev => wrap64 (cur - prev)) (positions.drop 1) positions

/-- One packed block: `bo = varint(len(b) - 16)`, then the key deltas, then
the position deltas, all as varints. -/
def packBlock (b : List (Nat × Nat)) : List Nat :=
  encode_varint ((b.length : Int) - 16)
    ++ (icKeyDeltas b).flatMap (fun x => encode_varint (x : Int))
    ++ (icPosDeltas b).flatMap encode_varint

/-- The encoded `IndexCompressed` payload: int64 `r`, the sync table of
`(u64 block key, int64 block offset)` entries (offsets accumulated with
`len(b)` of the *row* blocks, as the source does), then the packed blocks.
`none` models the `assert mr == len(blocks)` failure (e.g. empty input,
where `mr = int((0-1)/16)+1 = 1` with zero blocks); `Int.tdiv` is Python's
toward-zero `int(... / ...)`. -/
def indexCompressedEncoded (pairs : List (Nat × Nat)) (srtd : Bool) : Option (List Nat) :=
  let data := icData pairs srtd
  let blocks := (blockify data).1
  let padding := (blockify data).2
  let r : Int := (blocks.length * 16 : Nat) - (padding : Nat)
  let mr : Int := Int.tdiv (r - 1) 16 + 1
  let dataOffset : Int := mr * 8 + 8
  if mr = blocks.length then
    let blockKeys := blocks.map (fun b => (((b.take 16).map Prod.fst).getD 0 0))
    let offsets := syncFrom dataOffset ((blocks.dropLast).map List.length)
    let sync := (blockKeys.zip offsets).flatMap (fun p => u64le p.1 ++ int64le p.2)
    some (int64le r ++ sync ++ (blocks.map packBlock).flatten)
  else none

/-- Loop invariant of the blocking loop: after `n` iterations the emitted
blocks concatenate to exactly `data[:bstart]`, the open block spans
`[bstart, n)`, and the open block is nonempty once anything was scanned. -/
theorem blockLoop_invariant (data : List (Nat × Nat)) : ∀ n : Nat,
    ((List.range n).foldl (blockStep data) ([], 0, 0)).1.flatten =
        data.take ((List.range n).foldl (blockStep data) ([], 0, 0)).2.1 ∧
    ((List.range n).foldl (blockStep data) ([], 0, 0)).2.1 +
        ((List.range n).foldl (blockStep data) ([], 0, 0)).2.2 = n ∧
    (1 ≤ n → 1 ≤ ((List.range n).foldl (blockStep data) ([], 0, 0)).2.2)
  | 0 => by simp
  | n + 1 => by
    obtain ⟨h1, h2, h3⟩ := blockLoop_invariant data n
    rw [List.range_succ, List.foldl_append, List.foldl_cons, List.foldl_nil]
    set st := (List.range n).foldl (blockStep data) ([], 0, 0) with hst
    rw [blockStep]
    by_cases hb : st.2.2 < 16
    · rw [if_pos hb]
      exact ⟨h1, by dsimp only; omega, fun _ => by dsimp only; omega⟩
    · rw [if_neg hb]
      by_cases hk : (data.getD n (0, 0)).1 = (data.getD (n - 1) (0, 0)).1
      · rw [if_pos hk]
        exact ⟨h1, by dsimp only; omega, fun _ => by dsimp only; omega⟩
      · rw [if_neg hk]
        refine ⟨?_, by dsimp only, fun _ => by dsimp only; omega⟩
        dsimp only
        rw [List.flatten_append, h1]
        have hbst : st.2.1 + (n - st.2.1) = n := by omega
        calc data.take st.2.1 ++ [(data.drop st.2.1).take (n - st.2.1)].flatten
            = data.take st.2.1 ++ (data.drop st.2.1).take (n - st.2.1) := by simp
          _ = data.take (st.2.1 + (n - st.2.1)) := (List.take_add data _ _).symm
          _ = data.take n := by rw [hbst]

/-- The blocks of `blockify` hold every input row plus `padding` sentinel
rows, the padding never exceeds 15, and nonempty input yields at least one
block. -/
theorem blockify_props (data : List (Nat × Nat)) :
    ((blockify data).1.map List.length).sum = data.length + (blockify data).2 ∧
    (blockify data).2 ≤ 15 ∧
    (1 ≤ data.length → 1 ≤ (blockify data).1.length) := by
  obtain ⟨h1, h2, h3⟩ := blockLoop_invariant data data.length
  rw [blockify]
  set st := blockLoop data with hst
  have hst2 : st = (List.range data.length).foldl (blockStep data) ([], 0, 0) := rfl
  rw [← hst2] at h1 h2 h3
  have hbst : st.2.1 ≤ data.length := by omega
  have hsum : (st.1.map List.length).sum = st.2.1 := by
    rw [← List.length_flatten, h1, List.length_take]
    omega
  by_cases hz : st.2.2 ≠ 0
  · rw [if_pos hz]
    by_cases hlt : st.2.2 < 16
    · rw [if_pos hlt]
      refine ⟨?_, by dsimp only; omega, fun _ => by simp⟩
      dsimp only
      rw [List.map_append, List.sum_append, hsum]
      simp only [List.map_cons, List.map_nil, List.sum_cons, List.sum_nil,
        List.length_append, List.length_drop, List.length_replicate]
      omega
    · rw [if_neg hlt]
      refine ⟨?_, by dsimp only; omega, fun _ => by simp⟩
      dsimp only
      rw [List.map_append, List.sum_append, hsum]
      simp only [List.map_cons, List.map_nil, List.sum_cons, List.sum_nil,
        List.length_drop]
      omega
  · rw [if_neg hz]
    have hz0 : st.2.2 = 0 := by omega
    have hn0 : data.length = st.2.1 := by omega
    refine ⟨?_, by omega, fun hge => ?_⟩
    · rw [hsum]
      omega
    · exact absurd (h3 (by omega)) (by omega)

/-- The S6 scenario: 17 pairs, all with key 7, positions ascending. -/
def s6pairs : List (Nat × Nat) := (List.range 17).map (fun i => (7, i))

/-- C3 counterexample (the S6 scenario): the 17 equal-key pairs form one
overflow block of length 17 with `bo = varint(1)` and 15 zero key deltas,
but the preamble is `r = 16` — the regular-item count `16·m - padding` —
not 17, and not the `Σ block_lengths - padding = 17` the claim states. -/
theorem c3_indexcompressed_counterexample :
    (icBlocks s6pairs false).map List.length = [17] ∧
    icPadding s6pairs false = 0 ∧
    icKeyDeltas ((icBlocks s6pairs false).getD 0 []) = List.replicate 15 0 ∧
    (packBlock ((icBlocks s6pairs false).getD 0 [])).take 1 = encode_varint 1 ∧
    icR s6pairs false = 16 ∧
    ¬ icR s6pairs false = 17 ∧
    (indexCompressedEncoded s6pairs false).map (fun e => e.take 8) =
      some (int64le 16) := by
  decide

/-- C3 (amended): for nonempty input, the block rows hold every (sorted)
input pair plus the final block's padding, so
`Σ block_lengths = n + padding`; the preamble `r` is the *regular-item*
count `16·m - padding` (`m` blocks of 16 slots), hence `r = n` exactly when
no block overflowed (every block holds exactly 16 rows); construction
succeeds and the first 8 payload bytes are the little-endian int64 `r`. -/
theorem c3_indexcompressed_r_regular_items (pairs : List (Nat × Nat)) (srtd : Bool)
    (hne : pairs ≠ []) :
    ((icBlocks pairs srtd).map List.length).sum = pairs.length + icPadding pairs srtd ∧
    icR pairs srtd = 16 * ((icBlocks pairs srtd).length : Int) - (icPadding pairs srtd : Int) ∧
    ((∀ b ∈ icBlocks pairs srtd, b.length = 16) → icR pairs srtd = (pairs.length : Int)) ∧
    (∃ e, indexCompressedEncoded pairs srtd = some e ∧
      e.take 8 = int64le (icR pairs srtd)) := by
  have hdl : (icData pairs srtd).length = pairs.length := by
    cases srtd
    · simp [icData, indexSortPairs, List.length_insertionSort, u64pairs]
    · simp [icData, u64pairs]
  obtain ⟨hsum, hpadle, hblk⟩ := blockify_props (icData pairs srtd)
  have hne1 : 1 ≤ (icData pairs srtd).length := by
    rw [hdl]
    have := List.length_pos.mpr hne
    omega
  have hm1 : 1 ≤ (icBlocks pairs srtd).length := hblk hne1
  have hpad15 : icPadding pairs srtd ≤ 15 := hpadle
  have hsum2 : ((icBlocks pairs srtd).map List.length).sum =
      pairs.length + icPadding pairs srtd := by
    rw [icBlocks, icPadding, ← hdl]
    exact hsum
  have hrval : icR pairs srtd =
      16 * ((icBlocks pairs srtd).length : Int) - (icPadding pairs srtd : Int) := by
    rw [icR]
    push_cast
    ring
  refine ⟨hsum2, hrval, ?_, ?_⟩
  · intro hall
    have hconst : (icBlocks pairs srtd).map List.length =
        List.replicate (icBlocks pairs srtd).length 16 := by
      have : ∀ x ∈ (icBlocks pairs srtd).map List.length, x = 16 := by
        intro x hx
        obtain ⟨b, hb, hbx⟩ := List.mem_map.mp hx
        rw [← hbx]
        exact hall b hb
      rw [List.eq_replicate_iff]
      exact ⟨by rw [List.length_map], this⟩
    have hsum3 : ((icBlocks pairs srtd).map List.length).sum =
        (icBlocks pairs srtd).length * 16 := by
      rw [hconst, List.sum_replicate, smul_eq_mul]
    rw [hrval]
    rw [hsum3] at hsum2
    omega
  · have hcond : Int.tdiv
        ((((blockify (icData pairs srtd)).1.length * 16 : Nat) : Int)
          - (((blockify (icData pairs srtd)).2 : Nat) : Int) - 1) 16 + 1 =
        (((blockify (icData pairs srtd)).1.length : Nat) : Int) := by
      have hm1b : 1 ≤ (blockify (icData pairs srtd)).1.length := hm1
      have hp15 : (blockify (icData pairs srtd)).2 ≤ 15 := hpadle
      rw [Int.tdiv_eq_ediv (by push_cast; omega) (by omega)]
      omega
    rw [indexCompressedEncoded]
    simp only [if_pos hcond]
    refine ⟨_, rfl, ?_⟩
    rw [List.append_assoc, List.take_append_of_le_length (by rw [int64le_length]),
      List.take_of_length_le (by rw [int64le_length])]
    rfl

/-- Witness for C3 at two distinct-key pairs: one padded block, no overflow,
so the preamble equals the pair count 2. -/
theorem c3_indexcompressed_witness :
    (([((3 : Nat), (1 : Nat)), (1, 2)] : List (Nat × Nat)) ≠ []) ∧
    icR [(3, 1), (1, 2)] false = 2 ∧
    (∃ e, indexCompressedEncoded [(3, 1), (1, 2)] false = some e ∧
      e.take 8 = int64le (icR [(3, 1), (1, 2)] false)) := by
  refine ⟨by decide, ?_,
    (c3_indexcompressed_r_regular_items [(3, 1), (1, 2)] false (by decide)).2.2.2⟩
  have h := (c3_indexcompressed_r_regular_items [(3, 1), (1, 2)] false
    (by decide)).2.2.1 (by decide)
  simpa using h

end Ziggypy
